import Mathlib

/-!
Verification of the chip-distribution core of `src/app.py`
(`calc_chip_distribution`, lines 61-93, and `get_chip_metrics`,
lines 95-107) against the repository's specification.

The pandas dataframe handed to `calc_chip_distribution` is modelled as a
list of rows (`PriceBar`) together with a flag recording whether the
`turnover_ratio` column is present (`PriceDF`); a missing cell of that
column is `none`.  Python floats are modelled as exact rationals.
-/

namespace StockHunter

/-- One row of the price-history dataframe: trade date (as an index),
closing price, and the `turnover_ratio` cell, `none` when the cell is
missing (NaN). -/
structure PriceBar where
  date : ℤ
  close : ℚ
  turnover_ratio : Option ℚ
deriving DecidableEq

/-- The dataframe handed to `calc_chip_distribution`: the rows plus the
dataframe-level fact of whether a `turnover_ratio` column exists at all
(`'turnover_ratio' not in df.columns`). -/
structure PriceDF where
  hasTurnover : Bool
  bars : List PriceBar
deriving DecidableEq

/-- `round(x, 2)` of `app.py` line 72: rounding to two decimal places.
Python rounds ties to even, but a tie (an exact multiple of 1/200 not of
1/100) is not representable as a binary float, so on the floats the source
actually handles this agrees with round-half-up. -/
def round2 (x : ℚ) : ℚ := (⌊x * 100 + 1 / 2⌋ : ℤ) / 100

/-- Line 73: `turnover = row['turnover_ratio'] / 100.0`.  After the fill of
lines 66-69 the cell is always present; the default matches that fill. -/
def turnoverFrac (b : PriceBar) : ℚ := b.turnover_ratio.getD 2 / 100

/-- Lines 76-77: every existing bin's weight is multiplied by
`(1.0 - turnover)`. -/
def decay (t : ℚ) (chip : List (ℚ × ℚ)) : List (ℚ × ℚ) :=
  chip.map (fun pv => (pv.1, pv.2 * (1 - t)))

/-- Lines 80-83: add `turnover` to the bin at `price`, creating it with
weight `turnover` when absent.  The dict is modelled as an association
list in insertion order. -/
def inject (p t : ℚ) (chip : List (ℚ × ℚ)) : List (ℚ × ℚ) :=
  if p ∈ chip.map Prod.fst then
    chip.map (fun pv => if pv.1 = p then (pv.1, pv.2 + t) else pv)
  else
    chip ++ [(p, t)]

/-- One iteration of the loop of lines 71-83. -/
def chipStep (chip : List (ℚ × ℚ)) (b : PriceBar) : List (ℚ × ℚ) :=
  inject (round2 b.close) (turnoverFrac b) (decay (turnoverFrac b) chip)

/-- The whole loop: `chip_dict` after all rows, starting from `{}`. -/
def runChips (bars : List PriceBar) : List (ℚ × ℚ) :=
  bars.foldl chipStep []

/-- Lines 66-69: `df['turnover_ratio'] = 2.0` when the column is absent,
`df['turnover_ratio'] = df['turnover_ratio'].fillna(2.0)` otherwise.
Both assignments mutate the caller's dataframe in place; this function is
the dataframe they leave behind. -/
def fillDF (df : PriceDF) : PriceDF :=
  if df.hasTurnover then
    ⟨true, df.bars.map fun b => { b with turnover_ratio := some (b.turnover_ratio.getD 2) }⟩
  else
    ⟨true, df.bars.map fun b => { b with turnover_ratio := some 2 }⟩

/-- Line 88: `chip_df['volume'].sum()`. -/
def totalVol (chip : List (ℚ × ℚ)) : ℚ := (chip.map Prod.snd).sum

/-- Line 86: `chip_df.sort_values('price')` (keys of the dict are unique,
so stability is irrelevant). -/
def sortChips (chip : List (ℚ × ℚ)) : List (ℚ × ℚ) :=
  List.insertionSort (fun a b => a.1 ≤ b.1) chip

/-- Lines 88-90: divide every weight by the total only when the total is
positive. -/
def normalizeChips (chip : List (ℚ × ℚ)) : List (ℚ × ℚ) :=
  if 0 < totalVol chip then chip.map (fun pv => (pv.1, pv.2 / totalVol chip)) else chip

/-- One row of the returned table: `price`, `volume`, `cumsum_vol`. -/
structure ChipRow where
  price : ℚ
  volume : ℚ
  cumsum_vol : ℚ
deriving DecidableEq

/-- Line 92: the running-sum column, carrying the sum so far. -/
def cumsumFrom (acc : ℚ) : List (ℚ × ℚ) → List ChipRow
  | [] => []
  | pv :: rest => ⟨pv.1, pv.2, acc + pv.2⟩ :: cumsumFrom (acc + pv.2) rest

/-- `calc_chip_distribution` (lines 61-93) with `decimals = 2`: fill the
turnover column, run the decay/injection loop, sort by price, normalize
when the total is positive, attach the cumulative-sum column. -/
def calc_chip_distribution (df : PriceDF) : List ChipRow :=
  cumsumFrom 0 (normalizeChips (sortChips (runChips (fillDF df).bars)))

/-- `calc_chip_distribution` together with the state of the caller's
dataframe after the call: the column assignments of lines 66-69 mutate
`df` in place, and nothing later writes to `df`. -/
def calc_chip_distribution_state (df : PriceDF) : List ChipRow × PriceDF :=
  (calc_chip_distribution df, fillDF df)

/-- The fourth value returned by `get_chip_metrics`: the scalar `0` on the
empty dataframe (line 97), the whole table `chip_df` otherwise
(line 107). -/
inductive MetricsFourth where
  | num (q : ℚ)
  | table (t : List ChipRow)
deriving DecidableEq

/-- `get_chip_metrics` (lines 95-107).  The `try`/`except` around the
percentile lookups is modelled by matching on the two `find?` results:
`.iloc[0]` on the rows with `cumsum_vol >= c` is the first such row, and
an empty selection raises, landing in the `except` branch. -/
def get_chip_metrics (chip_df : List ChipRow) (current_price : ℚ) :
    ℚ × ℚ × ℚ × MetricsFourth :=
  if chip_df = [] then (0, 0, 0, .num 0)
  else
    let profit_df := chip_df.filter fun r => r.price ≤ current_price
    let profit_ratio := (profit_df.map ChipRow.volume).sum * 100
    let avg_cost := (chip_df.map fun r => r.price * r.volume).sum
    let concentration_90 :=
      match chip_df.find? (fun r => 5 / 100 ≤ r.cumsum_vol),
            chip_df.find? (fun r => 95 / 100 ≤ r.cumsum_vol) with
      | some r05, some r95 => (r95.price - r05.price) / (r05.price + r95.price) * 2 * 100
      | _, _ => 0
    (profit_ratio, avg_cost, concentration_90, .table chip_df)

/-! ## Definitions coming from the specification's wording

Each of these follows the words of a claim, to be compared with the
corresponding definition read off the source. -/

/-- The claim's pipeline for `simulate`: the same decay/injection fold,
then every bin weight divided (unconditionally) by the sum of all bin
weights, the table sorted ascending by price with a running cumulative
sum. -/
def spec_distribution (df : PriceDF) : List ChipRow :=
  cumsumFrom 0 (sortChips ((runChips (fillDF df).bars).map
    (fun pv => (pv.1, pv.2 / totalVol (runChips (fillDF df).bars)))))

/-- The clamp of the claim for C3: the turnover fraction forced into
`[0.001, 1.0]`. -/
def clampFrac (t : ℚ) : ℚ := max (1 / 1000) (min 1 t)

/-- The per-bar step as the claim for C3 describes it: the clamped
fraction drives both the decay and the injection. -/
def clampedChipStep (chip : List (ℚ × ℚ)) (b : PriceBar) : List (ℚ × ℚ) :=
  inject (round2 b.close) (clampFrac (turnoverFrac b))
    (decay (clampFrac (turnoverFrac b)) chip)

/-- The claim's profit ratio for C4: `100 ×` the weight strictly below the
current price. -/
def spec_profit_strict (chip_df : List ChipRow) (current_price : ℚ) : ℚ :=
  100 * ((chip_df.filter fun r => r.price < current_price).map ChipRow.volume).sum

/-- The profit ratio the code computes: `100 ×` the weight at or below
the current price. -/
def spec_profit_le (chip_df : List ChipRow) (current_price : ℚ) : ℚ :=
  100 * ((chip_df.filter fun r => r.price ≤ current_price).map ChipRow.volume).sum

/-- The average cost: `Σ price × weight`. -/
def spec_avg_cost (chip_df : List ChipRow) : ℚ :=
  (chip_df.map fun r => r.price * r.volume).sum

/-- The concentration figure of the claim for C5:
`100 × (pHigh - pLow) / (pHigh + pLow)` at the 5% / 95% cumulative
thresholds, `0` when a threshold is never reached. -/
def spec_concentration90 (chip_df : List ChipRow) : ℚ :=
  match chip_df.find? (fun r => 5 / 100 ≤ r.cumsum_vol),
        chip_df.find? (fun r => 95 / 100 ≤ r.cumsum_vol) with
  | some rL, some rH => 100 * (rH.price - rL.price) / (rH.price + rL.price)
  | _, _ => 0

/-- The concentration_90 value the code computes (line 104): the claim's
figure times two. -/
def concentration90 (chip_df : List ChipRow) : ℚ :=
  match chip_df.find? (fun r => 5 / 100 ≤ r.cumsum_vol),
        chip_df.find? (fun r => 95 / 100 ≤ r.cumsum_vol) with
  | some r05, some r95 => (r95.price - r05.price) / (r05.price + r95.price) * 2 * 100
  | _, _ => 0

/-- The concentration_70 figure named by the claim for C6: the central
70% band at the 15% / 85% cumulative thresholds. -/
def spec_concentration70 (chip_df : List ChipRow) : ℚ :=
  match chip_df.find? (fun r => 15 / 100 ≤ r.cumsum_vol),
        chip_df.find? (fun r => 85 / 100 ≤ r.cumsum_vol) with
  | some rL, some rH => 100 * (rH.price - rL.price) / (rH.price + rL.price)
  | _, _ => 0

/-- The turnover defaulting of the claim for C7: the constant `1.0`
instead of the source's `2.0`. -/
def spec_fill_one (df : PriceDF) : PriceDF :=
  if df.hasTurnover then
    ⟨true, df.bars.map fun b => { b with turnover_ratio := some (b.turnover_ratio.getD 1) }⟩
  else
    ⟨true, df.bars.map fun b => { b with turnover_ratio := some 1 }⟩

/-! ## Helper lemmas -/

theorem decay_snd_nonneg {t : ℚ} (ht : t ≤ 1) {chip : List (ℚ × ℚ)}
    (h : ∀ v ∈ chip.map Prod.snd, 0 ≤ v) :
    ∀ v ∈ (decay t chip).map Prod.snd, 0 ≤ v := by
  intro v hv
  simp only [decay, List.map_map, List.mem_map, Function.comp] at hv
  obtain ⟨pv, hpv, rfl⟩ := hv
  exact mul_nonneg (h pv.2 (List.mem_map_of_mem Prod.snd hpv)) (by linarith)

theorem inject_snd_nonneg {p t : ℚ} (ht : 0 ≤ t) {chip : List (ℚ × ℚ)}
    (h : ∀ v ∈ chip.map Prod.snd, 0 ≤ v) :
    ∀ v ∈ (inject p t chip).map Prod.snd, 0 ≤ v := by
  intro v hv
  unfold inject at hv
  by_cases hp : p ∈ chip.map Prod.fst
  · rw [if_pos hp] at hv
    simp only [List.map_map, List.mem_map, Function.comp] at hv
    obtain ⟨pv, hpv, rfl⟩ := hv
    have hpv2 := h pv.2 (List.mem_map_of_mem Prod.snd hpv)
    by_cases he : pv.1 = p
    · rw [if_pos he]
      exact add_nonneg hpv2 ht
    · rw [if_neg he]
      exact hpv2
  · rw [if_neg hp, List.map_append, List.mem_append] at hv
    rcases hv with hv | hv
    · exact h v hv
    · simp only [List.map_cons, List.map_nil, List.mem_singleton] at hv
      exact hv ▸ ht

theorem turnoverFrac_nonneg {b : PriceBar} (hb : 0 ≤ b.turnover_ratio.getD 2) :
    0 ≤ turnoverFrac b :=
  div_nonneg hb (by norm_num)

theorem turnoverFrac_le_one {b : PriceBar} (hb : b.turnover_ratio.getD 2 ≤ 100) :
    turnoverFrac b ≤ 1 :=
  (div_le_one (by norm_num)).mpr hb

theorem chipStep_snd_nonneg {chip : List (ℚ × ℚ)} (b : PriceBar)
    (hb0 : 0 ≤ b.turnover_ratio.getD 2) (hb1 : b.turnover_ratio.getD 2 ≤ 100)
    (h : ∀ v ∈ chip.map Prod.snd, 0 ≤ v) :
    ∀ v ∈ (chipStep chip b).map Prod.snd, 0 ≤ v :=
  inject_snd_nonneg (turnoverFrac_nonneg hb0)
    (decay_snd_nonneg (turnoverFrac_le_one hb1) h)

theorem foldl_chipStep_nonneg (bars : List PriceBar) (chip : List (ℚ × ℚ))
    (hb : ∀ b ∈ bars, 0 ≤ b.turnover_ratio.getD 2 ∧ b.turnover_ratio.getD 2 ≤ 100)
    (h : ∀ v ∈ chip.map Prod.snd, 0 ≤ v) :
    ∀ v ∈ (List.foldl chipStep chip bars).map Prod.snd, 0 ≤ v := by
  induction bars generalizing chip with
  | nil => exact h
  | cons b rest ih =>
    exact ih (chipStep chip b) (fun x hx => hb x (List.mem_cons_of_mem b hx))
      (chipStep_snd_nonneg b (hb b (List.mem_cons_self b rest)).1
        (hb b (List.mem_cons_self b rest)).2 h)

theorem cumsumFrom_map_volume (l : List (ℚ × ℚ)) (acc : ℚ) :
    (cumsumFrom acc l).map ChipRow.volume = l.map Prod.snd := by
  induction l generalizing acc with
  | nil => rfl
  | cons pv rest ih => simp [cumsumFrom, ih]

theorem cumsumFrom_nonneg (l : List (ℚ × ℚ)) (acc : ℚ) (hacc : 0 ≤ acc)
    (h : ∀ v ∈ l.map Prod.snd, 0 ≤ v) :
    ∀ r ∈ cumsumFrom acc l, 0 ≤ r.volume ∧ 0 ≤ r.cumsum_vol := by
  induction l generalizing acc with
  | nil => intro r hr; simp [cumsumFrom] at hr
  | cons pv rest ih =>
    intro r hr
    have hv : 0 ≤ pv.2 := h pv.2 (by simp)
    rw [cumsumFrom, List.mem_cons] at hr
    rcases hr with rfl | hr
    · exact ⟨hv, show (0:ℚ) ≤ acc + pv.2 by linarith⟩
    · exact ih (acc + pv.2) (by linarith) (fun v hv' => h v (by simp [hv'])) r hr

theorem cumsumFrom_chain (l : List (ℚ × ℚ)) (acc : ℚ)
    (h : ∀ v ∈ l.map Prod.snd, 0 ≤ v) :
    List.Chain' (fun a b : ChipRow => a.cumsum_vol ≤ b.cumsum_vol) (cumsumFrom acc l) := by
  induction l generalizing acc with
  | nil => simp [cumsumFrom]
  | cons pv rest ih =>
    rw [cumsumFrom, List.chain'_cons']
    refine ⟨?_, ih (acc + pv.2) (fun v hv => h v (by simp [hv]))⟩
    intro y hy
    cases rest with
    | nil => simp [cumsumFrom] at hy
    | cons qv rest2 =>
      rw [cumsumFrom, List.head?_cons, Option.mem_some_iff] at hy
      subst hy
      have : 0 ≤ qv.2 := h qv.2 (by simp)
      show acc + pv.2 ≤ acc + pv.2 + qv.2
      linarith

theorem cumsumFrom_getLast (l : List (ℚ × ℚ)) (acc : ℚ) (h : l ≠ []) :
    ((cumsumFrom acc l).map ChipRow.cumsum_vol).getLast? =
      some (acc + (l.map Prod.snd).sum) := by
  induction l generalizing acc with
  | nil => exact absurd rfl h
  | cons pv rest ih =>
    cases rest with
    | nil => simp [cumsumFrom]
    | cons qv rest2 =>
      have htail := ih (acc + pv.2) (by simp)
      rw [cumsumFrom, List.map_cons]
      rw [cumsumFrom, List.map_cons] at htail ⊢
      rw [List.getLast?_cons_cons, htail]
      simp only [List.map_cons, List.sum_cons]
      exact congrArg some (by ring)

theorem list_sum_div (l : List ℚ) (c : ℚ) : (l.map (· / c)).sum = l.sum / c := by
  induction l with
  | nil => simp
  | cons x rest ih => simp [ih, add_div]

theorem sortChips_perm (chip : List (ℚ × ℚ)) : (sortChips chip).Perm chip := by
  unfold sortChips
  exact List.perm_insertionSort _ chip

theorem totalVol_sortChips (chip : List (ℚ × ℚ)) :
    totalVol (sortChips chip) = totalVol chip :=
  ((sortChips_perm chip).map Prod.snd).sum_eq

theorem orderedInsert_map_fst (g : ℚ × ℚ → ℚ × ℚ) (hg : ∀ x, (g x).1 = x.1)
    (a : ℚ × ℚ) (l : List (ℚ × ℚ)) :
    List.orderedInsert (fun x y => x.1 ≤ y.1) (g a) (l.map g) =
      (List.orderedInsert (fun x y => x.1 ≤ y.1) a l).map g := by
  induction l with
  | nil => rfl
  | cons b rest ih =>
    rw [List.map_cons, List.orderedInsert, List.orderedInsert]
    by_cases h : a.1 ≤ b.1
    · rw [if_pos (by rw [hg, hg]; exact h), if_pos h, List.map_cons, List.map_cons]
    · rw [if_neg (by rw [hg, hg]; exact h), if_neg h, List.map_cons, ih]

theorem insertionSort_map_fst (g : ℚ × ℚ → ℚ × ℚ) (hg : ∀ x, (g x).1 = x.1)
    (l : List (ℚ × ℚ)) :
    List.insertionSort (fun x y => x.1 ≤ y.1) (l.map g) =
      (List.insertionSort (fun x y => x.1 ≤ y.1) l).map g := by
  induction l with
  | nil => rfl
  | cons a rest ih =>
    rw [List.map_cons, List.insertionSort, List.insertionSort, ih,
      orderedInsert_map_fst g hg]

theorem sortChips_map_fst (g : ℚ × ℚ → ℚ × ℚ) (hg : ∀ x, (g x).1 = x.1)
    (l : List (ℚ × ℚ)) : sortChips (l.map g) = (sortChips l).map g :=
  insertionSort_map_fst g hg l

theorem normalizeChips_map_snd (chip : List (ℚ × ℚ)) (h : 0 < totalVol chip) :
    (normalizeChips chip).map Prod.snd = (chip.map Prod.snd).map (· / totalVol chip) := by
  rw [normalizeChips, if_pos h, List.map_map, List.map_map]
  rfl

theorem normalizeChips_sum (chip : List (ℚ × ℚ)) (h : 0 < totalVol chip) :
    totalVol (normalizeChips chip) = 1 := by
  show ((normalizeChips chip).map Prod.snd).sum = 1
  rw [normalizeChips_map_snd chip h, list_sum_div]
  exact div_self (ne_of_gt h)

theorem normalizeChips_snd_nonneg (chip : List (ℚ × ℚ))
    (h : ∀ v ∈ chip.map Prod.snd, 0 ≤ v) :
    ∀ v ∈ (normalizeChips chip).map Prod.snd, 0 ≤ v := by
  intro v hv
  rw [normalizeChips] at hv
  by_cases hp : 0 < totalVol chip
  · rw [if_pos hp, List.map_map] at hv
    simp only [List.mem_map, Function.comp] at hv
    obtain ⟨pv, hpv, rfl⟩ := hv
    exact div_nonneg (h pv.2 (List.mem_map_of_mem Prod.snd hpv)) (le_of_lt hp)
  · rw [if_neg hp] at hv
    exact h v hv

theorem fillDF_hasTurnover (df : PriceDF) : (fillDF df).hasTurnover = true := by
  unfold fillDF
  by_cases h : df.hasTurnover <;> simp [h]

theorem fillDF_bars (df : PriceDF) :
    (fillDF df).bars = if df.hasTurnover
      then df.bars.map fun b => { b with turnover_ratio := some (b.turnover_ratio.getD 2) }
      else df.bars.map fun b => { b with turnover_ratio := some 2 } := by
  unfold fillDF
  by_cases h : df.hasTurnover <;> simp [h]

theorem fillDF_idem (df : PriceDF) : fillDF (fillDF df) = fillDF df := by
  unfold fillDF
  by_cases h : df.hasTurnover <;> simp [h, List.map_map]

theorem fillDF_map_date (df : PriceDF) :
    (fillDF df).bars.map PriceBar.date = df.bars.map PriceBar.date := by
  rw [fillDF_bars]
  by_cases h : df.hasTurnover <;> simp [h, List.map_map]

theorem fillDF_map_close (df : PriceDF) :
    (fillDF df).bars.map PriceBar.close = df.bars.map PriceBar.close := by
  rw [fillDF_bars]
  by_cases h : df.hasTurnover <;> simp [h, List.map_map]

/-! ## Claims -/

/-- C1: for every series of bars, `calc_chip_distribution` builds the
distribution by the claimed decay/injection fold, and — whenever the sum
of all bin weights is positive, so that the claimed unconditional
division applies — divides every bin weight by that sum and returns the
table sorted ascending by price with a running cumulative-sum column. -/
theorem C1_simulate_pipeline (df : PriceDF)
    (h : 0 < totalVol (runChips (fillDF df).bars)) :
    calc_chip_distribution df = spec_distribution df := by
  unfold calc_chip_distribution spec_distribution
  rw [normalizeChips, if_pos (by rwa [totalVol_sortChips]), totalVol_sortChips,
    sortChips_map_fst
      (fun pv => (pv.1, pv.2 / totalVol (runChips (fillDF df).bars)))
      (fun x => rfl)]

/-- Witness for C1 at a one-bar series with turnover 50%. -/
theorem C1_simulate_pipeline_witness :
    0 < totalVol (runChips (fillDF ⟨true, [⟨1, 10, some 50⟩]⟩).bars) ∧
    calc_chip_distribution ⟨true, [⟨1, 10, some 50⟩]⟩ =
      spec_distribution ⟨true, [⟨1, 10, some 50⟩]⟩ := by
  have h : 0 < totalVol (runChips (fillDF ⟨true, [⟨1, 10, some 50⟩]⟩).bars) := by
    norm_num [totalVol, runChips, chipStep, turnoverFrac, round2, decay, inject, fillDF]
  exact ⟨h, C1_simulate_pipeline _ h⟩

/-- Counterexample to C2: the two-bar series (close 10, turnover 50%),
(close 20, turnover 200%) has positive total mass 3/2, yet the first
returned weight is -1/3 < 0: without clamping, a turnover_ratio above 100
turns the decay factor negative. -/
theorem C2_invariants_counterexample :
    0 < totalVol (runChips (fillDF ⟨true, [⟨1, 10, some 50⟩, ⟨2, 20, some 200⟩]⟩).bars) ∧
    calc_chip_distribution ⟨true, [⟨1, 10, some 50⟩, ⟨2, 20, some 200⟩]⟩ =
      [⟨10, -1/3, -1/3⟩, ⟨20, 4/3, 1⟩] ∧
    ¬ (0:ℚ) ≤ -1/3 := by
  refine ⟨?_, ?_, by norm_num⟩
  · norm_num [totalVol, runChips, chipStep, turnoverFrac, round2, decay, inject, fillDF]
  · norm_num [calc_chip_distribution, fillDF, runChips, chipStep, turnoverFrac, round2,
      decay, inject, sortChips, normalizeChips, totalVol, cumsumFrom]

/-- C2 as amended: when additionally every bar's turnover_ratio after
defaulting lies in [0, 100], a positive total mass gives non-negative
weights summing to 1 and a non-decreasing cumulative column that starts
at a value ≥ 0 and ends at 1. -/
theorem C2_distribution_invariants (df : PriceDF)
    (hrange : ∀ b ∈ (fillDF df).bars,
      0 ≤ b.turnover_ratio.getD 2 ∧ b.turnover_ratio.getD 2 ≤ 100)
    (hmass : 0 < totalVol (runChips (fillDF df).bars)) :
    (∀ r ∈ calc_chip_distribution df, 0 ≤ r.volume) ∧
    ((calc_chip_distribution df).map ChipRow.volume).sum = 1 ∧
    List.Chain' (fun a b => a.cumsum_vol ≤ b.cumsum_vol) (calc_chip_distribution df) ∧
    (∀ r ∈ (calc_chip_distribution df).head?, 0 ≤ r.cumsum_vol) ∧
    ((calc_chip_distribution df).map ChipRow.cumsum_vol).getLast? = some 1 := by
  have nn_bins : ∀ v ∈ (runChips (fillDF df).bars).map Prod.snd, 0 ≤ v :=
    foldl_chipStep_nonneg (fillDF df).bars [] hrange (by simp)
  have nn_sorted : ∀ v ∈ (sortChips (runChips (fillDF df).bars)).map Prod.snd, 0 ≤ v :=
    fun v hv => nn_bins v
      (((sortChips_perm (runChips (fillDF df).bars)).map Prod.snd).mem_iff.mp hv)
  have nn_norm := normalizeChips_snd_nonneg _ nn_sorted
  have hmass' : 0 < totalVol (sortChips (runChips (fillDF df).bars)) := by
    rwa [totalVol_sortChips]
  have hsum1 : totalVol (normalizeChips (sortChips (runChips (fillDF df).bars))) = 1 :=
    normalizeChips_sum _ hmass'
  have hboth := cumsumFrom_nonneg
    (normalizeChips (sortChips (runChips (fillDF df).bars))) 0 le_rfl nn_norm
  have hne : normalizeChips (sortChips (runChips (fillDF df).bars)) ≠ [] := by
    intro he
    rw [he] at hsum1
    simp [totalVol] at hsum1
  refine ⟨fun r hr => (hboth r hr).1, ?_, ?_, ?_, ?_⟩
  · rw [calc_chip_distribution, cumsumFrom_map_volume]
    exact hsum1
  · exact cumsumFrom_chain _ 0 nn_norm
  · exact fun r hr => (hboth r (List.mem_of_mem_head? hr)).2
  · rw [calc_chip_distribution, cumsumFrom_getLast _ 0 hne, zero_add]
    exact congrArg some hsum1

/-- Witness for C2 at a one-bar series with turnover 50%. -/
theorem C2_distribution_invariants_witness :
    (∀ b ∈ (fillDF ⟨true, [⟨1, 10, some 50⟩]⟩).bars,
      0 ≤ b.turnover_ratio.getD 2 ∧ b.turnover_ratio.getD 2 ≤ 100) ∧
    0 < totalVol (runChips (fillDF ⟨true, [⟨1, 10, some 50⟩]⟩).bars) ∧
    ((∀ r ∈ calc_chip_distribution ⟨true, [⟨1, 10, some 50⟩]⟩, 0 ≤ r.volume) ∧
      ((calc_chip_distribution ⟨true, [⟨1, 10, some 50⟩]⟩).map ChipRow.volume).sum = 1 ∧
      List.Chain' (fun a b => a.cumsum_vol ≤ b.cumsum_vol)
        (calc_chip_distribution ⟨true, [⟨1, 10, some 50⟩]⟩) ∧
      (∀ r ∈ (calc_chip_distribution ⟨true, [⟨1, 10, some 50⟩]⟩).head?, 0 ≤ r.cumsum_vol) ∧
      ((calc_chip_distribution ⟨true, [⟨1, 10, some 50⟩]⟩).map ChipRow.cumsum_vol).getLast?
        = some 1) := by
  have h1 : ∀ b ∈ (fillDF ⟨true, [⟨1, 10, some 50⟩]⟩).bars,
      0 ≤ b.turnover_ratio.getD 2 ∧ b.turnover_ratio.getD 2 ≤ 100 := by
    intro b hb
    simp only [fillDF, if_pos, List.map_cons, List.map_nil, List.mem_singleton] at hb
    subst hb
    norm_num
  have h2 : 0 < totalVol (runChips (fillDF ⟨true, [⟨1, 10, some 50⟩]⟩).bars) := by
    norm_num [totalVol, runChips, chipStep, turnoverFrac, round2, decay, inject, fillDF]
  exact ⟨h1, h2, C2_distribution_invariants _ h1 h2⟩

/-- Counterexample to C3: on a prior bin of weight 1/2 a bar with
turnover_ratio 0 leaves the weight at 1/2 and injects a zero-weight bin,
while the claimed clamped step would decay it to 1/2 × 999/1000 and
inject weight 1/1000; the two step results differ. -/
theorem C3_clamping_counterexample :
    chipStep [(10, 1/2)] ⟨2, 20, some 0⟩ = [(10, 1/2), (20, 0)] ∧
    clampedChipStep [(10, 1/2)] ⟨2, 20, some 0⟩ = [(10, 999/2000), (20, 1/1000)] ∧
    chipStep [(10, 1/2)] ⟨2, 20, some 0⟩ ≠ clampedChipStep [(10, 1/2)] ⟨2, 20, some 0⟩ := by
  refine ⟨?_, ?_, ?_⟩
  · norm_num [chipStep, turnoverFrac, round2, decay, inject]
  · norm_num [clampedChipStep, clampFrac, turnoverFrac, round2, decay, inject]
  · norm_num [chipStep, clampedChipStep, clampFrac, turnoverFrac, round2, decay, inject]

/-- C3 as amended: no clamping happens — the fraction actually used is
`turnover_ratio / 100` as-is, so a bar with turnover_ratio 0 multiplies
every prior weight by 1 (leaving it untouched) and injects a zero-weight
bin. -/
theorem C3_no_clamping (chip : List (ℚ × ℚ)) (b : PriceBar) :
    (∀ r, b.turnover_ratio = some r → turnoverFrac b = r / 100) ∧
    (b.turnover_ratio = some 0 → decay (turnoverFrac b) chip = chip) ∧
    (b.turnover_ratio = some 0 → round2 b.close ∉ chip.map Prod.fst →
      chipStep chip b = chip ++ [(round2 b.close, 0)]) := by
  have hz : b.turnover_ratio = some 0 → turnoverFrac b = 0 := by
    intro h0
    simp [turnoverFrac, h0]
  refine ⟨?_, ?_, ?_⟩
  · intro r hr
    simp [turnoverFrac, hr]
  · intro h0
    rw [hz h0]
    simp [decay]
  · intro h0 hp
    rw [chipStep, hz h0]
    rw [show decay 0 chip = chip by simp [decay]]
    rw [inject, if_neg hp]

/-- Witness for C3: a concrete zero-turnover bar over a one-bin state. -/
theorem C3_no_clamping_witness :
    turnoverFrac ⟨2, 20, some 0⟩ = 0 / 100 ∧
    decay (turnoverFrac ⟨2, 20, some 0⟩) [((10:ℚ), (1:ℚ)/2)] = [(10, 1/2)] ∧
    chipStep [((10:ℚ), (1:ℚ)/2)] ⟨2, 20, some 0⟩ =
      [((10:ℚ), (1:ℚ)/2)] ++ [(round2 20, 0)] := by
  obtain ⟨ha, hb, hc⟩ := C3_no_clamping [((10:ℚ), (1:ℚ)/2)] ⟨2, 20, some 0⟩
  refine ⟨ha 0 rfl, hb rfl, hc rfl ?_⟩
  norm_num [round2]

theorem get_chip_metrics_eq (chip_df : List ChipRow) (cur : ℚ) (h : chip_df ≠ []) :
    get_chip_metrics chip_df cur =
      (((chip_df.filter fun r => r.price ≤ cur).map ChipRow.volume).sum * 100,
       (chip_df.map fun r => r.price * r.volume).sum,
       concentration90 chip_df,
       MetricsFourth.table chip_df) := by
  rw [get_chip_metrics, if_neg h]
  rfl

/-- Counterexample to C4: on the one-bin table at price 42 with the
current price also 42, the code returns profit_ratio 100 (it compares
with ≤), while the claimed strict-< profit ratio is 0. -/
theorem C4_profit_strict_counterexample :
    (get_chip_metrics [⟨42, 1, 1⟩] 42).1 = 100 ∧
    spec_profit_strict [⟨42, 1, 1⟩] 42 = 0 ∧
    (100:ℚ) ≠ 0 := by
  refine ⟨?_, ?_, by norm_num⟩
  · rw [get_chip_metrics_eq _ _ (by simp)]
    norm_num
  · norm_num [spec_profit_strict, List.filter]

/-- C4 as amended: profit_ratio equals 100 times the summed weight of the
bins whose price is less than OR EQUAL to the current price; a bin at
exactly the current price contributes fully. -/
theorem C4_profit_ratio_le (chip_df : List ChipRow) (cur : ℚ) (h : chip_df ≠ []) :
    (get_chip_metrics chip_df cur).1 = spec_profit_le chip_df cur := by
  rw [get_chip_metrics_eq chip_df cur h]
  show ((chip_df.filter fun r => r.price ≤ cur).map ChipRow.volume).sum * 100 = _
  rw [spec_profit_le]
  exact mul_comm _ _

/-- Witness for C4 at the one-bin table at price 42 and current price 42. -/
theorem C4_profit_ratio_le_witness :
    ([⟨42, 1, 1⟩] : List ChipRow) ≠ [] ∧
    (get_chip_metrics [⟨42, 1, 1⟩] 42).1 = spec_profit_le [⟨42, 1, 1⟩] 42 :=
  ⟨by simp, C4_profit_ratio_le [⟨42, 1, 1⟩] 42 (by simp)⟩

/-- Counterexample to C5: on the two-bin table (10, weight 1/2),
(20, weight 1/2) the code returns concentration_90 = 200/3 — the extra
`* 2` of line 104 — while the claimed formula
100 × (pHigh - pLow)/(pHigh + pLow) gives 100/3. -/
theorem C5_concentration_counterexample :
    (get_chip_metrics [⟨10, 1/2, 1/2⟩, ⟨20, 1/2, 1⟩] 10).2.2.1 = 200/3 ∧
    spec_concentration90 [⟨10, 1/2, 1/2⟩, ⟨20, 1/2, 1⟩] = 100/3 ∧
    (200/3 : ℚ) ≠ 100/3 := by
  refine ⟨?_, ?_, by norm_num⟩
  · rw [get_chip_metrics_eq _ _ (by simp)]
    show concentration90 _ = 200/3
    norm_num [concentration90, List.find?]
  · norm_num [spec_concentration90, List.find?]

/-- C5 as amended: with both cumulative thresholds reached,
concentration_90 equals TWICE the claimed
100 × (pHigh - pLow)/(pHigh + pLow). -/
theorem C5_concentration_90_doubled (chip_df : List ChipRow) (cur : ℚ)
    (rL rH : ChipRow) (h : chip_df ≠ [])
    (hL : chip_df.find? (fun r => 5 / 100 ≤ r.cumsum_vol) = some rL)
    (hH : chip_df.find? (fun r => 95 / 100 ≤ r.cumsum_vol) = some rH) :
    (get_chip_metrics chip_df cur).2.2.1 = 2 * spec_concentration90 chip_df := by
  rw [get_chip_metrics_eq chip_df cur h]
  show concentration90 chip_df = 2 * spec_concentration90 chip_df
  rw [concentration90, spec_concentration90, hL, hH]
  ring

/-- Witness for C5 at the two-bin table (10, 1/2), (20, 1/2). -/
theorem C5_concentration_90_doubled_witness :
    ([⟨10, 1/2, 1/2⟩, ⟨20, 1/2, 1⟩] : List ChipRow) ≠ [] ∧
    List.find? (fun r : ChipRow => 5 / 100 ≤ r.cumsum_vol)
      [⟨10, 1/2, 1/2⟩, ⟨20, 1/2, 1⟩] = some ⟨10, 1/2, 1/2⟩ ∧
    List.find? (fun r : ChipRow => 95 / 100 ≤ r.cumsum_vol)
      [⟨10, 1/2, 1/2⟩, ⟨20, 1/2, 1⟩] = some ⟨20, 1/2, 1⟩ ∧
    (get_chip_metrics [⟨10, 1/2, 1/2⟩, ⟨20, 1/2, 1⟩] 10).2.2.1 =
      2 * spec_concentration90 [⟨10, 1/2, 1/2⟩, ⟨20, 1/2, 1⟩] := by
  have hL : List.find? (fun r : ChipRow => 5 / 100 ≤ r.cumsum_vol)
      [(⟨10, 1/2, 1/2⟩ : ChipRow), ⟨20, 1/2, 1⟩] = some ⟨10, 1/2, 1/2⟩ := by
    norm_num [List.find?]
  have hH : List.find? (fun r : ChipRow => 95 / 100 ≤ r.cumsum_vol)
      [(⟨10, 1/2, 1/2⟩ : ChipRow), ⟨20, 1/2, 1⟩] = some ⟨20, 1/2, 1⟩ := by
    norm_num [List.find?]
  exact ⟨by simp, hL, hH,
    C5_concentration_90_doubled _ 10 _ _ (by simp) hL hH⟩

/-- Counterexample to C6: on a concrete non-empty table the fourth
returned value is the table itself, not a scalar — in particular it is
not the claimed concentration_70 number. -/
theorem C6_concentration70_counterexample :
    (get_chip_metrics [⟨10, 1/2, 1/2⟩, ⟨20, 1/2, 1⟩] 10).2.2.2 =
      MetricsFourth.table [⟨10, 1/2, 1/2⟩, ⟨20, 1/2, 1⟩] ∧
    MetricsFourth.table [⟨10, 1/2, 1/2⟩, ⟨20, 1/2, 1⟩] ≠
      MetricsFourth.num (spec_concentration70 [⟨10, 1/2, 1/2⟩, ⟨20, 1/2, 1⟩]) := by
  constructor
  · rw [get_chip_metrics_eq _ _ (by simp)]
  · intro hcontra
    exact MetricsFourth.noConfusion hcontra

/-- C6 as amended: on any non-empty table the function returns exactly
three scalar metrics — profit_ratio (with ≤), avg_cost and the doubled
concentration_90 — and, as fourth value, the distribution table itself;
no concentration_70 is computed anywhere. -/
theorem C6_three_metrics_and_table (chip_df : List ChipRow) (cur : ℚ)
    (h : chip_df ≠ []) :
    get_chip_metrics chip_df cur =
      (spec_profit_le chip_df cur, spec_avg_cost chip_df, concentration90 chip_df,
        MetricsFourth.table chip_df) := by
  rw [get_chip_metrics_eq chip_df cur h]
  refine Prod.ext ?_ rfl
  show ((chip_df.filter fun r => r.price ≤ cur).map ChipRow.volume).sum * 100 = _
  rw [spec_profit_le]
  exact mul_comm _ _

/-- Witness for C6 at the two-bin table (10, 1/2), (20, 1/2). -/
theorem C6_three_metrics_and_table_witness :
    ([⟨10, 1/2, 1/2⟩, ⟨20, 1/2, 1⟩] : List ChipRow) ≠ [] ∧
    get_chip_metrics [⟨10, 1/2, 1/2⟩, ⟨20, 1/2, 1⟩] 10 =
      (spec_profit_le [⟨10, 1/2, 1/2⟩, ⟨20, 1/2, 1⟩] 10,
       spec_avg_cost [⟨10, 1/2, 1/2⟩, ⟨20, 1/2, 1⟩],
       concentration90 [⟨10, 1/2, 1/2⟩, ⟨20, 1/2, 1⟩],
       MetricsFourth.table [⟨10, 1/2, 1/2⟩, ⟨20, 1/2, 1⟩]) :=
  ⟨by simp, C6_three_metrics_and_table _ 10 (by simp)⟩

/-- Counterexample to C7: with the turnover column absent, the source
fills every bar with the constant 2.0, not the claimed 1.0. -/
theorem C7_default_counterexample :
    (fillDF ⟨false, [⟨1, 10, none⟩]⟩).bars = [⟨1, 10, some 2⟩] ∧
    (spec_fill_one ⟨false, [⟨1, 10, none⟩]⟩).bars = [⟨1, 10, some 1⟩] ∧
    fillDF ⟨false, [⟨1, 10, none⟩]⟩ ≠ spec_fill_one ⟨false, [⟨1, 10, none⟩]⟩ := by
  refine ⟨by simp [fillDF], by simp [spec_fill_one], ?_⟩
  norm_num [fillDF, spec_fill_one]

/-- C7 as amended: the uniform default constant is 2.0 — the whole column
when it is absent, and each missing cell independently (no forward or
backward fill) when it is present. -/
theorem C7_default_two (df : PriceDF) (b : PriceBar) (hb : b ∈ df.bars) :
    (df.hasTurnover = false → { b with turnover_ratio := some 2 } ∈ (fillDF df).bars) ∧
    (df.hasTurnover = true →
      { b with turnover_ratio := some (b.turnover_ratio.getD 2) } ∈ (fillDF df).bars) ∧
    (df.hasTurnover = true → b.turnover_ratio = none →
      { b with turnover_ratio := some 2 } ∈ (fillDF df).bars) := by
  refine ⟨fun h => ?_, fun h => ?_, fun h hnone => ?_⟩
  · rw [fillDF_bars, if_neg (by simp [h])]
    exact List.mem_map_of_mem _ hb
  · rw [fillDF_bars, if_pos h]
    exact List.mem_map_of_mem _ hb
  · rw [fillDF_bars, if_pos h]
    have := List.mem_map_of_mem
      (fun b => { b with turnover_ratio := some (b.turnover_ratio.getD 2) }) hb
    simpa [hnone] using this

/-- Witness for C7: a bar with a missing cell, under both an absent
column and a present one. -/
theorem C7_default_two_witness :
    ({ date := 1, close := 10, turnover_ratio := some 2 } : PriceBar) ∈
      (fillDF ⟨false, [⟨1, 10, none⟩]⟩).bars ∧
    ({ date := 1, close := 10, turnover_ratio := some 2 } : PriceBar) ∈
      (fillDF ⟨true, [⟨1, 10, none⟩]⟩).bars := by
  constructor
  · exact (C7_default_two ⟨false, [⟨1, 10, none⟩]⟩ ⟨1, 10, none⟩ (by simp)).1 rfl
  · exact (C7_default_two ⟨true, [⟨1, 10, none⟩]⟩ ⟨1, 10, none⟩ (by simp)).2.2 rfl rfl

/-- Counterexample to C8's zero-mass clause: the one-bar series with
turnover_ratio 0 accumulates total mass 0, yet `calc_chip_distribution`
returns the one-row zero-weight table, not the claimed "no
distribution" (an empty table). -/
theorem C8_no_distribution_counterexample :
    totalVol (runChips (fillDF ⟨true, [⟨1, 10, some 0⟩]⟩).bars) = 0 ∧
    calc_chip_distribution ⟨true, [⟨1, 10, some 0⟩]⟩ = [⟨10, 0, 0⟩] ∧
    calc_chip_distribution ⟨true, [⟨1, 10, some 0⟩]⟩ ≠ [] := by
  have h2 : calc_chip_distribution ⟨true, [⟨1, 10, some 0⟩]⟩ = [⟨10, 0, 0⟩] := by
    norm_num [calc_chip_distribution, fillDF, runChips, chipStep, turnoverFrac, round2,
      decay, inject, sortChips, normalizeChips, totalVol, cumsumFrom]
  refine ⟨?_, h2, ?_⟩
  · norm_num [totalVol, runChips, chipStep, turnoverFrac, round2, decay, inject, fillDF]
  · rw [h2]
    simp

/-- C8 as amended: the degenerate cases never divide by zero — an empty
series yields the empty table and all-zero metrics, a non-positive total
mass makes the function skip normalization and return the accumulated
(zero-weight) table, and a missed 5% cumulative threshold sends
concentration_90 to the sentinel 0 while profit_ratio and avg_cost are
still returned. -/
theorem C8_degenerate_inputs :
    (∀ h : Bool, calc_chip_distribution ⟨h, []⟩ = []) ∧
    (∀ cur : ℚ, get_chip_metrics [] cur = (0, 0, 0, MetricsFourth.num 0)) ∧
    (∀ df : PriceDF, ¬ 0 < totalVol (sortChips (runChips (fillDF df).bars)) →
      calc_chip_distribution df = cumsumFrom 0 (sortChips (runChips (fillDF df).bars))) ∧
    (∀ (chip_df : List ChipRow) (cur : ℚ), chip_df ≠ [] →
      chip_df.find? (fun r => 5 / 100 ≤ r.cumsum_vol) = none →
      get_chip_metrics chip_df cur =
        (spec_profit_le chip_df cur, spec_avg_cost chip_df, 0,
          MetricsFourth.table chip_df)) := by
  refine ⟨?_, ?_, ?_, ?_⟩
  · intro h
    cases h <;>
      norm_num [calc_chip_distribution, fillDF, runChips, sortChips, normalizeChips,
        totalVol, cumsumFrom]
  · intro cur
    rw [get_chip_metrics, if_pos rfl]
  · intro df hmass
    rw [calc_chip_distribution, normalizeChips, if_neg hmass]
  · intro chip_df cur hne hmiss
    rw [get_chip_metrics_eq chip_df cur hne]
    refine Prod.ext ?_ (Prod.ext rfl (Prod.ext ?_ rfl))
    · show ((chip_df.filter fun r => r.price ≤ cur).map ChipRow.volume).sum * 100 = _
      rw [spec_profit_le]
      exact mul_comm _ _
    · show concentration90 chip_df = 0
      rcases h95 : chip_df.find? (fun r => 95 / 100 ≤ r.cumsum_vol) with _ | r95 <;>
        simp [concentration90, hmiss, h95]

/-- Witness for C8: the empty series, the empty table, the zero-turnover
one-bar series, and its zero-weight output table. -/
theorem C8_degenerate_inputs_witness :
    calc_chip_distribution ⟨true, []⟩ = [] ∧
    get_chip_metrics [] 7 = (0, 0, 0, MetricsFourth.num 0) ∧
    calc_chip_distribution ⟨true, [⟨1, 10, some 0⟩]⟩ =
      cumsumFrom 0 (sortChips (runChips (fillDF ⟨true, [⟨1, 10, some 0⟩]⟩).bars)) ∧
    get_chip_metrics [⟨10, 0, 0⟩] 10 =
      (spec_profit_le [⟨10, 0, 0⟩] 10, spec_avg_cost [⟨10, 0, 0⟩], 0,
        MetricsFourth.table [⟨10, 0, 0⟩]) := by
  obtain ⟨h1, h2, h3, h4⟩ := C8_degenerate_inputs
  refine ⟨h1 true, h2 7, h3 _ ?_, h4 _ 10 (by simp) ?_⟩
  · norm_num [totalVol, sortChips, runChips, chipStep, turnoverFrac, round2, decay,
      inject, fillDF]
  · norm_num [List.find?]

/-- Counterexample to C9: after the call, the input dataframe's missing
turnover cell has been overwritten with 2.0 — the input is not left
unchanged. -/
theorem C9_mutation_counterexample :
    (calc_chip_distribution_state ⟨true, [⟨1, 10, none⟩]⟩).2 ≠
      (⟨true, [⟨1, 10, none⟩]⟩ : PriceDF) := by
  simp [calc_chip_distribution_state, fillDF]

/-- C9 as amended: the call mutates only the turnover_ratio column in
place — dates and closes are untouched, a present column has each missing
cell replaced by 2.0, an absent column is created all-2.0 — and a second
call on the mutated dataframe returns the same distribution. -/
theorem C9_mutation_frame (df : PriceDF) :
    (calc_chip_distribution_state df).2.bars.map PriceBar.date =
      df.bars.map PriceBar.date ∧
    (calc_chip_distribution_state df).2.bars.map PriceBar.close =
      df.bars.map PriceBar.close ∧
    (df.hasTurnover = true →
      (calc_chip_distribution_state df).2.bars.map PriceBar.turnover_ratio =
        df.bars.map fun b => some (b.turnover_ratio.getD 2)) ∧
    (df.hasTurnover = false →
      (calc_chip_distribution_state df).2.bars.map PriceBar.turnover_ratio =
        df.bars.map fun _ => some 2) ∧
    calc_chip_distribution (calc_chip_distribution_state df).2 =
      calc_chip_distribution df ∧
    (calc_chip_distribution_state df).1 = calc_chip_distribution df := by
  refine ⟨fillDF_map_date df, fillDF_map_close df, ?_, ?_, ?_, rfl⟩
  · intro h
    show (fillDF df).bars.map PriceBar.turnover_ratio = _
    rw [fillDF_bars, if_pos h, List.map_map]
    rfl
  · intro h
    show (fillDF df).bars.map PriceBar.turnover_ratio = _
    rw [fillDF_bars, if_neg (by simp [h]), List.map_map]
    rfl
  · show calc_chip_distribution (fillDF df) = calc_chip_distribution df
    rw [calc_chip_distribution, calc_chip_distribution, fillDF_idem]

/-- Witness for C9: the one-bar series with a missing cell, with the
column present and with it absent. -/
theorem C9_mutation_frame_witness :
    (calc_chip_distribution_state ⟨true, [⟨1, 10, none⟩]⟩).2.bars.map
        PriceBar.turnover_ratio =
      [(⟨1, 10, none⟩ : PriceBar)].map (fun b => some (b.turnover_ratio.getD 2)) ∧
    (calc_chip_distribution_state ⟨false, [⟨1, 10, none⟩]⟩).2.bars.map
        PriceBar.turnover_ratio =
      [(⟨1, 10, none⟩ : PriceBar)].map (fun _ => some 2) ∧
    calc_chip_distribution (calc_chip_distribution_state ⟨true, [⟨1, 10, none⟩]⟩).2 =
      calc_chip_distribution ⟨true, [⟨1, 10, none⟩]⟩ :=
  ⟨(C9_mutation_frame ⟨true, [⟨1, 10, none⟩]⟩).2.2.1 rfl,
   (C9_mutation_frame ⟨false, [⟨1, 10, none⟩]⟩).2.2.2.1 rfl,
   (C9_mutation_frame ⟨true, [⟨1, 10, none⟩]⟩).2.2.2.2.1⟩

/-- C10: with every bar's defaulted turnover_ratio in [0, 100], every
weight is non-negative after every decay step and every injection step of
the simulation, and every weight and cumulative weight of the returned
table is non-negative — normalized or not. -/
theorem C10_weights_nonneg (df : PriceDF)
    (hrange : ∀ b ∈ (fillDF df).bars,
      0 ≤ b.turnover_ratio.getD 2 ∧ b.turnover_ratio.getD 2 ≤ 100) :
    (∀ l₁ l₂, (fillDF df).bars = l₁ ++ l₂ →
      (∀ v ∈ (List.foldl chipStep [] l₁).map Prod.snd, 0 ≤ v) ∧
      (∀ b ∈ l₂,
        ∀ v ∈ (decay (turnoverFrac b) (List.foldl chipStep [] l₁)).map Prod.snd,
          0 ≤ v)) ∧
    (∀ r ∈ calc_chip_distribution df, 0 ≤ r.volume ∧ 0 ≤ r.cumsum_vol) := by
  constructor
  · intro l₁ l₂ hsplit
    have h1 : ∀ b ∈ l₁, 0 ≤ b.turnover_ratio.getD 2 ∧ b.turnover_ratio.getD 2 ≤ 100 :=
      fun b hb => hrange b (hsplit ▸ List.mem_append_left l₂ hb)
    have nn1 := foldl_chipStep_nonneg l₁ [] h1 (by simp)
    refine ⟨nn1, fun b hb => ?_⟩
    exact decay_snd_nonneg
      (turnoverFrac_le_one (hrange b (hsplit ▸ List.mem_append_right l₁ hb)).2) nn1
  · have nn_bins : ∀ v ∈ (runChips (fillDF df).bars).map Prod.snd, 0 ≤ v :=
      foldl_chipStep_nonneg (fillDF df).bars [] hrange (by simp)
    have nn_sorted : ∀ v ∈ (sortChips (runChips (fillDF df).bars)).map Prod.snd, 0 ≤ v :=
      fun v hv => nn_bins v
        (((sortChips_perm (runChips (fillDF df).bars)).map Prod.snd).mem_iff.mp hv)
    exact cumsumFrom_nonneg _ 0 le_rfl (normalizeChips_snd_nonneg _ nn_sorted)

/-- Witness for C10 at a one-bar series with turnover 50%. -/
theorem C10_weights_nonneg_witness :
    (∀ b ∈ (fillDF ⟨true, [⟨1, 10, some 50⟩]⟩).bars,
      0 ≤ b.turnover_ratio.getD 2 ∧ b.turnover_ratio.getD 2 ≤ 100) ∧
    (∀ r ∈ calc_chip_distribution ⟨true, [⟨1, 10, some 50⟩]⟩,
      0 ≤ r.volume ∧ 0 ≤ r.cumsum_vol) := by
  have h1 : ∀ b ∈ (fillDF ⟨true, [⟨1, 10, some 50⟩]⟩).bars,
      0 ≤ b.turnover_ratio.getD 2 ∧ b.turnover_ratio.getD 2 ≤ 100 := by
    intro b hb
    simp only [fillDF, if_pos, List.map_cons, List.map_nil, List.mem_singleton] at hb
    subst hb
    norm_num
  exact ⟨h1, (C10_weights_nonneg _ h1).2⟩

end StockHunter
